import Mathlib

/-!
Shallow embedding of the position-encoding and dataset-materialization
pipeline of the chess-bachelor repository (Python sources under
src/python), together with proofs about it.

Numeric values that the Python code keeps as float32/float64 are modelled
as exact rationals.  The float pipeline computes the correctly-rounded
image of these exact values; every concrete comparison made below
(0, ±1, 3/10, the 0/1 tensor entries, list lengths, split indices) is
decided identically in both arithmetics, so the rational model is
faithful on everything the claims state.
-/

namespace ChessEval

/-! ## Numeric token parsing (models Python `int(...)` / `float(...)` on
evaluation tokens, whose alphabet is restricted by the extraction regex
`[%eval ([#0-9.-]+)]` to digits, dots, minus signs and `#`). -/

def isDigitChar (c : Char) : Bool := '0' ≤ c && c ≤ '9'

/-- Value of a digit list, most significant first (accumulator style). -/
def digitsToNat (acc : Nat) : List Char → Nat
  | [] => acc
  | c :: cs => digitsToNat (acc * 10 + (c.toNat - 48)) cs

/-- A nonempty all-digit sequence parses to its value; anything else fails,
as Python `int`/`float` do on an empty or non-digit magnitude. -/
def parseNatDigits (cs : List Char) : Option Nat :=
  if cs ≠ [] && cs.all isDigitChar then some (digitsToNat 0 cs) else none

/-- Model of Python `int(s)` on sign-and-digit tokens (as produced by the
evaluation regex after the leading `#`): optional sign, then digits.
`int` raises `ValueError` (here: `none`) on anything else, e.g. `""`,
`"-"`, `"3.5"`. -/
def parseIntToken (cs : List Char) : Option Int :=
  match cs with
  | '-' :: rest => (parseNatDigits rest).map (fun n => -(n : Int))
  | '+' :: rest => (parseNatDigits rest).map (fun n => (n : Int))
  | _ => (parseNatDigits cs).map (fun n => (n : Int))

/-- Unsigned decimal magnitude: `"25"`, `"25.0"`, `"1."`, `".5"` parse;
`""`, `"."`, `"1.2.3"`, `"1-2"` fail, as for Python `float`. -/
def parseDecimalMag (cs : List Char) : Option ℚ :=
  match cs.splitOn '.' with
  | [ip] => (parseNatDigits ip).map (fun n => (n : ℚ))
  | [ip, fp] =>
    if (ip.all isDigitChar && fp.all isDigitChar) && (ip ≠ [] || fp ≠ []) then
      some ((digitsToNat 0 ip : ℚ) + (digitsToNat 0 fp : ℚ) / (10 : ℚ) ^ fp.length)
    else none
  | _ => none

/-- Model of Python `float(s)` on the evaluation-token alphabet
(digits, `.`, sign): optional sign then a decimal magnitude. -/
def parseFloatToken (cs : List Char) : Option ℚ :=
  match cs with
  | '-' :: rest => (parseDecimalMag rest).map (fun q => -q)
  | '+' :: rest => parseDecimalMag rest
  | _ => parseDecimalMag cs

/-! ## Label normalization (src/python/utils/process_pgn_files.py,
`normalize_evaluation`, lines 35-61). -/

/-- Python `min(a, b)`: `a` when `a ≤ b`, else `b`. -/
def pymin (a b : ℚ) : ℚ := if a ≤ b then a else b

/-- Python `max(a, b)`: `a` when `b ≤ a`, else `b`. -/
def pymax (a b : ℚ) : ℚ := if b ≤ a then a else b

/-- Model of `normalize_evaluation`: a token starting with `#` is a mate
marker, `int(eval_str[1:])` decides the sign (`1.0` if positive else
`-1.0`), parse failure gives `None`; otherwise the token is parsed as a
float, clamped by `max(-10, min(10, value))` and divided by `10`;
parse failure again gives `None`. -/
def normalize_evaluation (s : String) : Option ℚ :=
  if s.toList.head? = some '#' then
    match parseIntToken s.toList.tail with
    | some m => some (if 0 < m then 1 else -1)
    | none => none
  else
    match parseFloatToken s.toList with
    | some v => some (pymax (-10) (pymin 10 v) / 10)
    | none => none

/-! ## Extraction loop (src/python/utils/process_pgn_files.py, lines
133-146): for each sampled node carrying an eval comment, normalize the
token; on `None` the row is skipped, otherwise `(fen, value)` is
appended to the list later inserted into the database. -/

/-- Each input pair is `(fen, eval token)`; output pairs are the rows
that reach `position_list.append((fen, normalized_eval))`. -/
def extract_rows : List (String × String) → List (String × ℚ)
  | [] => []
  | (fen, evalStr) :: rest =>
    match normalize_evaluation evalStr with
    | none => extract_rows rest
    | some v => (fen, v) :: extract_rows rest

/-! ## Train/validation split (src/python/model/train.py, `fetch_data`,
lines 22-38): the fetched dataframe is cut at `int(len(df) * 0.8)`,
the prefix becoming the training split and the suffix the validation
split.  For every realistic length `n`, IEEE-754 evaluation of
`int(n * 0.8)` equals `⌊4n / 5⌋` (the representation error of `0.8` is
below one part in 2^52, far too small to cross the next integer), so the
cut index is modelled as `n * 4 / 5` in exact arithmetic; at the claimed
length 100 the float computation is `80.000000000000006`, truncated to
80 = 100 * 4 / 5. -/

def fetch_data (df : List α) : List α × List α :=
  let cut := df.length * 4 / 5
  (df.take cut, df.drop cut)

/-! ## Label standardization (sklearn `StandardScaler` as used by
src/python/model/v4/v4_train.py lines 19-22 and
src/python/model/v5/v5_train.py lines 52-58): `fit` computes the mean
and the population variance of the training labels; the stored scale is
`sqrt(var)`, with exact zeros replaced by 1.  Since a square root of a
rational is irrational in general, the fitted scale is passed as an
explicit parameter constrained by `scale^2 = var` (or `scale = 1` when
`var = 0`) in the theorems below. -/

def fit_mean (ys : List ℚ) : ℚ := ys.sum / ys.length

def fit_var (ys : List ℚ) : ℚ := (ys.map (fun y => (y - fit_mean ys) ^ 2)).sum / ys.length

/-- `transform(y) = (y - mean) / scale`. -/
def scaler_transform (mean scale y : ℚ) : ℚ := (y - mean) / scale

/-- `inverse_transform(y) = y * scale + mean`. -/
def scaler_inverse_transform (mean scale y : ℚ) : ℚ := y * scale + mean

/-- Model of the label handling in `load_and_preprocess_data` /
`v4_train.main`: `y_train = scaler.fit_transform(train)` fits the mean
(and the scale, supplied here as the parameter) on the training labels
only, and `y_val = scaler.transform(val)` reuses that fitted state. -/
def load_and_preprocess_labels (train val : List ℚ) (scale : ℚ) : List ℚ × List ℚ :=
  (train.map (scaler_transform (fit_mean train) scale),
   val.map (scaler_transform (fit_mean train) scale))

/-! ## Engine evaluation (src/python/preprocessing/evaluate_positions.py,
`evaluate_position` lines 54-84 and `update_positions_in_db` lines
87-108).  The analysis result is modelled by the fields the code reads:
the optional score (already taken from Black's point of view with
`mate_score=10000`, hence an integer when present) and the principal
variation as UCI strings.  The surrounding `except` clause, which
returns `(position_id, None, None)`, is a separate outcome and is what
the `score is not None` filter in `update_positions_in_db` removes. -/

structure AnalysisInfo where
  score : Option Int
  pv : List String
deriving DecidableEq

/-- Model of the non-exception path of `evaluate_position`: the defaults
are `score = 0`, `best_move = None`; they are overwritten only when the
engine output carries a score. -/
def evaluate_position (pid : Nat) (info : AnalysisInfo) : Nat × Option Int × Option String :=
  match info.score with
  | some s => (pid, some s, info.pv.head?)
  | none => (pid, some 0, none)

/-- Model of the row filter in `update_positions_in_db`:
`[(score, best_move, pos_id) for (pos_id, score, best_move) in evaluated_data
if score is not None]`. -/
def update_rows (evaluated : List (Nat × Option Int × Option String)) :
    List (Option Int × Option String × Nat) :=
  (evaluated.filter (fun e => e.2.1.isSome)).map (fun e => (e.2.1, e.2.2, e.1))

/-! ## FEN parsing (models the `chess.Board(fen)` constructor of
python-chess as the repository uses it: syntactic validation of the six
FEN fields, without the chess-960 extensions).  A parsed board is a
`Grid`: 8 rows of 8 characters, top rank (rank 8) first and files a..h
left to right within a row, `.` for an empty square — exactly the
traversal order of `str(board)` after removing spaces. -/

abbrev Grid := List (List Char)

def pieceLetters : List Char :=
  ['p', 'n', 'b', 'r', 'q', 'k', 'P', 'N', 'B', 'R', 'Q', 'K']

def isFenDigit (c : Char) : Bool := '1' ≤ c && c ≤ '8'

/-- Expands one FEN rank: a piece letter stands for itself, a digit `d`
for `d` empty squares; two consecutive digits and any other character are
rejected, as python-chess `set_board_fen` rejects them.  The boolean
argument records whether the previous character was a digit. -/
def expandFenRank : List Char → Bool → Option (List Char)
  | [], _ => some []
  | c :: cs, prevDigit =>
    if pieceLetters.contains c then
      (expandFenRank cs false).map (fun r => c :: r)
    else if isFenDigit c then
      if prevDigit then none
      else (expandFenRank cs true).map (fun r => List.replicate (c.toNat - 48) '.' ++ r)
    else none

/-- Parses the list of rank strings, requiring each expanded rank to have
exactly 8 squares. -/
def parseRanks : List (List Char) → Option Grid
  | [] => some []
  | r :: rs =>
    match expandFenRank r false with
    | none => none
    | some e =>
      if e.length = 8 then
        match parseRanks rs with
        | none => none
        | some g => some (e :: g)
      else none

/-- Parses the piece-placement field: exactly 8 ranks separated by `/`. -/
def parseBoardFen (cs : List Char) : Option Grid :=
  if (cs.splitOn '/').length = 8 then parseRanks (cs.splitOn '/') else none

/-- The castling field is `-` or letters from `KQkq` (the standard-chess
instances of python-chess's castling-fen alphabet). -/
def castlingOk (cs : List Char) : Bool :=
  cs == ['-'] || (!(cs == []) && cs.all (fun c => (['K', 'Q', 'k', 'q'] : List Char).contains c))

def fileChars : List Char := ['a', 'b', 'c', 'd', 'e', 'f', 'g', 'h']

/-- The en-passant field: `-` gives no square, a square name gives its
python-chess square index `rank * 8 + file` (a1 = 0, h8 = 63). -/
def parseEpField (cs : List Char) : Option (Option Nat) :=
  match cs with
  | ['-'] => some none
  | [f, r] =>
    match fileChars.findIdx? (fun c => c = f) with
    | some fi => if '1' ≤ r && r ≤ '8' then some (some ((r.toNat - 49) * 8 + fi)) else none
    | none => none
  | _ => none

/-- The board state the encoders read: piece placement, side to move,
effective castling letters, and the en-passant square. -/
structure Position where
  grid : Grid
  turn : Char
  castling : List Char
  epSquare : Option Nat
deriving DecidableEq

/-- Builds the `Position` from the six whitespace-separated FEN fields;
any syntactically invalid field fails, as `chess.Board(fen)` raises
`ValueError`. -/
def parseFenFields : List (List Char) → Option Position
  | [pl, trn, cast, ep, half, full] =>
    match parseBoardFen pl, parseEpField ep with
    | some g, some epSq =>
      if (trn == ['w'] || trn == ['b']) && castlingOk cast
          && (parseNatDigits half).isSome && (parseNatDigits full).isSome then
        some ⟨g, trn.headD 'w', if cast == ['-'] then [] else cast, epSq⟩
      else none
    | _, _ => none
  | _ => none

/-- Parses a six-field FEN string into a `Position`. -/
def parseFen (s : String) : Option Position :=
  parseFenFields (s.toList.splitOn ' ')

/-- The character on python-chess square `s` (`a1 = 0`): the grid stores
the top rank first, so square `s` sits in row `7 - s / 8`, column `s % 8`. -/
def squareChar (g : Grid) (s : Nat) : Char :=
  (g.getD (7 - s / 8) []).getD (s % 8) '.'

/-! ## Auxiliary feature extraction (src/python/utils/training_utils.py,
`encode_extra_features`, lines 52-67).  The castling-rights reads model
python-chess `has_kingside_castling_rights` / `has_queenside_castling_rights`
for standard positions: the letter must be present and the corresponding
rook and the king must stand on their home squares (that is what
`clean_castling_rights` reduces to without promoted pieces). -/

def hasKingsideWhite (p : Position) : Bool :=
  p.castling.contains 'K' && squareChar p.grid 7 == 'R' && squareChar p.grid 4 == 'K'

def hasQueensideWhite (p : Position) : Bool :=
  p.castling.contains 'Q' && squareChar p.grid 0 == 'R' && squareChar p.grid 4 == 'K'

def hasKingsideBlack (p : Position) : Bool :=
  p.castling.contains 'k' && squareChar p.grid 63 == 'r' && squareChar p.grid 60 == 'k'

def hasQueensideBlack (p : Position) : Bool :=
  p.castling.contains 'q' && squareChar p.grid 56 == 'r' && squareChar p.grid 60 == 'k'

/-- Model of `encode_extra_features`: `[side to move (1 = black), white
kingside, white queenside, black kingside, black queenside, en passant]`,
as float32 zeros and ones. -/
def encode_extra_features (fen : String) : Option (List ℚ) :=
  (parseFen fen).map (fun p =>
    [if p.turn = 'b' then 1 else 0,
     if hasKingsideWhite p then 1 else 0,
     if hasQueensideWhite p then 1 else 0,
     if hasKingsideBlack p then 1 else 0,
     if hasQueensideBlack p then 1 else 0,
     if p.epSquare.isSome then 1 else 0])

/-! ## 12-plane bitboard encoder (src/python/utils/training_utils.py,
`encode_fen_to_bitboard`, lines 70-90).  The code fills a `(12, 64)`
array — plane index `piece_to_index[piece_type] + (0 if white else 6)`,
square index the python-chess square — and then calls
`reshape((8, 8, 12))`, which in NumPy is a row-major reinterpretation of
the same flat buffer, not a transpose. -/

/-- `piece_to_index` plus the color offset: P N B R Q K = 0..5 for White,
p n b r q k = 6..11 for Black; `.` is no piece. -/
def pieceChannel (c : Char) : Option Nat :=
  match c with
  | 'P' => some 0 | 'N' => some 1 | 'B' => some 2
  | 'R' => some 3 | 'Q' => some 4 | 'K' => some 5
  | 'p' => some 6 | 'n' => some 7 | 'b' => some 8
  | 'r' => some 9 | 'q' => some 10 | 'k' => some 11
  | _ => none

/-- Plane `c` of the `(12, 64)` array: entry `s` is 1 exactly when the
piece of channel `c` occupies python-chess square `s`. -/
def bitboardPlane (g : Grid) (c : Nat) : List ℚ :=
  (List.range 64).map (fun s => if pieceChannel (squareChar g s) = some c then 1 else 0)

/-- The `(12, 64)` array in row-major (= channel-major) flat order; this
is also the flat buffer that `reshape((8, 8, 12))` reinterprets and that
`.flatten()` recovers. -/
def bitboardFlat (g : Grid) : List ℚ :=
  ((List.range 12).map (fun c => bitboardPlane g c)).flatten

/-- Cuts `k` consecutive chunks of `size` elements off the front of a
list (the row-major reinterpretation step of a NumPy reshape). -/
def chunksOf (size : Nat) : Nat → List ℚ → List (List ℚ)
  | 0, _ => []
  | k + 1, l => l.take size :: chunksOf size k (l.drop size)

/-- NumPy's row-major `reshape((8, 8, 12))` of a flat 768-buffer. -/
def reshape8812 (l : List ℚ) : List (List (List ℚ)) :=
  (chunksOf 96 8 l).map (fun r => chunksOf 12 8 r)

/-- Model of `encode_fen_to_bitboard`: build the `(12, 64)` planes from
`board.piece_map()` and reinterpret the buffer as `(8, 8, 12)`. -/
def encode_fen_to_bitboard (fen : String) : Option (List (List (List ℚ))) :=
  (parseFen fen).map (fun p => reshape8812 (bitboardFlat p.grid))

/-! ## 13-plane one-hot encoder (src/python/utils/training_utils.py,
`encode_fen_string`, lines 93-119; the same algorithm appears in
src/python/model/train.py, `encode_board`). -/

/-- `piece_to_index` built from `list('rnbqkpRNBQKP.')` by enumeration. -/
def pieceIndex13 (c : Char) : Option Nat :=
  match c with
  | 'r' => some 0 | 'n' => some 1 | 'b' => some 2
  | 'q' => some 3 | 'k' => some 4 | 'p' => some 5
  | 'R' => some 6 | 'N' => some 7 | 'B' => some 8
  | 'Q' => some 9 | 'K' => some 10 | 'P' => some 11
  | '.' => some 12
  | _ => none

/-- Model of `one_hot_encode_piece`: a 13-vector of zeros with a single 1
at the piece's index; a character outside the alphabet raises (`none`). -/
def one_hot_encode_piece (c : Char) : Option (List ℚ) :=
  (pieceIndex13 c).map (fun i => (List.range 13).map (fun j => if j = i then 1 else 0))

/-- One row of `encode_board`'s list comprehension. -/
def encodeRow13 : List Char → Option (List (List ℚ))
  | [] => some []
  | c :: cs =>
    match one_hot_encode_piece c, encodeRow13 cs with
    | some v, some vs => some (v :: vs)
    | _, _ => none

/-- Model of `encode_board` applied to the rows of `str(board)` (spaces
removed): one one-hot vector per square, rows top rank first. -/
def encode_board : Grid → Option (List (List (List ℚ)))
  | [] => some []
  | row :: rows =>
    match encodeRow13 row, encode_board rows with
    | some r, some rs => some (r :: rs)
    | _, _ => none

/-- Model of `encode_fen_string`: parse the FEN, then one-hot encode the
board text. -/
def encode_fen_string (fen : String) : Option (List (List (List ℚ))) :=
  (parseFen fen).bind (fun p => encode_board p.grid)

/-! ## TFRecord materialization (src/python/utils/training_utils.py,
`create_tfrecord_file` lines 129-152 and `_parse_function` lines
155-169).  A record holds the three float lists actually serialized:
the flattened bitboard, the six auxiliary features, and the label. -/

structure TFRecord where
  board : List ℚ
  extra : List ℚ
  label : List ℚ
deriving DecidableEq

/-- Row-major `.flatten()` of an `(8, 8, 12)` tensor. -/
def tensorFlatten (t : List (List (List ℚ))) : List ℚ :=
  (t.map (fun r => r.flatten)).flatten

/-- The per-row body of `create_tfrecord_file`'s loop: encode the FEN
twice (bitboard and extra features) and bundle the three float lists;
a FEN that fails to parse raises instead. -/
def encodeRowForRecord (fen : String) (ev : ℚ) : Option TFRecord :=
  match encode_fen_to_bitboard fen, encode_extra_features fen with
  | some bb, some ex => some ⟨tensorFlatten bb, ex, [ev]⟩
  | _, _ => none

/-- Model of `create_tfrecord_file`: rows are encoded and written in
order; the loop has no per-row exception handling, so the first
malformed FEN raises out of the function — records written before it
remain in the file (first component), the error is the second component,
and no later row is written. -/
def create_tfrecord_file : List (String × ℚ) → List TFRecord × Option String
  | [] => ([], none)
  | (fen, ev) :: rest =>
    match encodeRowForRecord fen ev with
    | none => ([], some "ParseError")
    | some r =>
      let out := create_tfrecord_file rest
      (r :: out.1, out.2)

/-- Model of `_parse_function`: the three `FixedLenFeature` fields demand
lengths 768, 6 and 1; the board is reshaped to `(8, 8, 12)` and the label
squeezed to a scalar. -/
def parse_function (r : TFRecord) : Option (List (List (List ℚ)) × List ℚ × ℚ) :=
  if r.board.length == 8 * 8 * 12 && r.extra.length == 6 && r.label.length == 1 then
    some (reshape8812 r.board, r.extra, r.label.headD 0)
  else none

/-! ## Concrete data and counting helpers used by the theorems -/

/-- The standard starting position, the spec's example FEN. -/
def startFen : String := "rnbqkbnr/pppppppp/8/8/8/8/PPPPPPPP/RNBQKBNR w KQkq - 0 1"

/-- The parsed board of `startFen`. -/
def startGrid : Grid := ((parseFen startFen).map Position.grid).getD []

/-- The number of pieces of channel `c` (piece type and color) on the
board, counted over the 64 python-chess squares. -/
def pieceCountOnGrid (g : Grid) (c : Nat) : Nat :=
  ((List.range 64).filter (fun s => decide (pieceChannel (squareChar g s) = some c))).length

/-- The population count of channel `c` of an `(8, 8, 12)` tensor: how
many of the 64 per-square vectors carry a 1 in coordinate `c`. -/
def tensorChannelOnes (t : List (List (List ℚ))) (c : Nat) : Nat :=
  (t.map (fun row => (row.map (fun v => if v.getD c 0 = (1 : ℚ) then 1 else 0)).sum)).sum

/-- The number of dataframe rows whose FEN encodes successfully (the
well-formed rows of a materialization request). -/
def wellFormedRowCount (df : List (String × ℚ)) : Nat :=
  (df.filter (fun row => (encodeRowForRecord row.1 row.2).isSome)).length

/-! ## Theorems: label normalization -/

/-- The clamped value divided by 10 always lies in `[-1, 1]`. -/
lemma clamp_div_bounds (v : ℚ) :
    -1 ≤ pymax (-10) (pymin 10 v) / 10 ∧ pymax (-10) (pymin 10 v) / 10 ≤ 1 := by
  have h10 : (0 : ℚ) < 10 := by norm_num
  constructor
  · rw [le_div_iff₀ h10]
    unfold pymin pymax
    split_ifs <;> linarith
  · rw [div_le_one h10]
    unfold pymin pymax
    split_ifs <;> linarith

/-- C4: `normalize_evaluation` sends a mate marker `#N` to exactly 1 when
`N > 0` and exactly -1 when `N < 0`; it sends a numeric token of value `v`
to `max(-10, min(10, v)) / 10`; every produced value lies in `[-1, 1]`;
and on the spec's concrete examples it returns `#5 ↦ 1`, `#-3 ↦ -1`,
`25.0 ↦ 1`, `3.0 ↦ 0.3`. -/
theorem C4_normalize_evaluation_spec :
    (∀ (s : String) (m : Int), s.toList.head? = some '#' →
        parseIntToken s.toList.tail = some m → 0 < m →
        normalize_evaluation s = some 1) ∧
    (∀ (s : String) (m : Int), s.toList.head? = some '#' →
        parseIntToken s.toList.tail = some m → m < 0 →
        normalize_evaluation s = some (-1)) ∧
    (∀ (s : String) (v : ℚ), s.toList.head? ≠ some '#' →
        parseFloatToken s.toList = some v →
        normalize_evaluation s = some (pymax (-10) (pymin 10 v) / 10)) ∧
    (∀ (s : String) (r : ℚ), normalize_evaluation s = some r → -1 ≤ r ∧ r ≤ 1) ∧
    normalize_evaluation "#5" = some 1 ∧
    normalize_evaluation "#-3" = some (-1) ∧
    normalize_evaluation "25.0" = some 1 ∧
    normalize_evaluation "3.0" = some (3 / 10) := by
  refine ⟨?_, ?_, ?_, ?_, ?_, ?_, ?_, ?_⟩
  · intro s m h1 h2 h3
    unfold normalize_evaluation
    rw [if_pos h1, h2]
    simp [h3]
  · intro s m h1 h2 h3
    unfold normalize_evaluation
    rw [if_pos h1, h2]
    simp [not_lt_of_gt h3]
  · intro s v h1 h2
    unfold normalize_evaluation
    rw [if_neg h1, h2]
  · intro s r h
    unfold normalize_evaluation at h
    split_ifs at h with h1
    · cases hp : parseIntToken s.toList.tail with
      | none => rw [hp] at h; cases h
      | some m =>
        rw [hp] at h
        simp only [Option.some.injEq] at h
        subst h
        split_ifs <;> norm_num
    · cases hp : parseFloatToken s.toList with
      | none => rw [hp] at h; cases h
      | some v =>
        rw [hp] at h
        simp only [Option.some.injEq] at h
        subst h
        exact clamp_div_bounds v
  · with_unfolding_all rfl
  · with_unfolding_all rfl
  · with_unfolding_all rfl
  · with_unfolding_all rfl

/-- C4 witness: the mate-marker law applied at the concrete token `#7`. -/
theorem C4_witness : normalize_evaluation "#7" = some 1 :=
  C4_normalize_evaluation_spec.1 "#7" 7 (by decide) (by decide) (by decide)

/-! ## Theorems: malformed-token exclusion -/

/-- C9: a node whose evaluation token does not normalize is skipped — the
extracted rows of `pre ++ node :: post` are those of `pre ++ post` — and
every extracted `(fen, v)` pair owes its value to a token that normalized
successfully to exactly `v`, so a malformed token is never coerced to 0. -/
theorem C9_malformed_rows_excluded :
    (∀ (pre post : List (String × String)) (fen evalStr : String),
        normalize_evaluation evalStr = none →
        extract_rows (pre ++ (fen, evalStr) :: post) = extract_rows (pre ++ post)) ∧
    (∀ (nodes : List (String × String)) (fen : String) (v : ℚ),
        (fen, v) ∈ extract_rows nodes →
        ∃ evalStr, (fen, evalStr) ∈ nodes ∧ normalize_evaluation evalStr = some v) := by
  constructor
  · intro pre post fen evalStr hbad
    induction pre with
    | nil =>
      simp only [List.nil_append]
      show (match normalize_evaluation evalStr with
        | none => extract_rows post
        | some v => (fen, v) :: extract_rows post) = extract_rows post
      rw [hbad]
    | cons p pre ih =>
      obtain ⟨pf, pe⟩ := p
      simp only [List.cons_append]
      unfold extract_rows
      rw [ih]
  · intro nodes
    induction nodes with
    | nil => intro fen v h; cases h
    | cons p rest ih =>
      obtain ⟨nf, ne⟩ := p
      intro fen v h
      unfold extract_rows at h
      cases hn : normalize_evaluation ne with
      | none =>
        rw [hn] at h
        obtain ⟨e, he, hv⟩ := ih fen v h
        exact ⟨e, List.mem_cons_of_mem _ he, hv⟩
      | some v0 =>
        rw [hn] at h
        rcases List.mem_cons.mp h with heq | hmem
        · obtain ⟨hf, hv⟩ := Prod.mk.injEq .. ▸ heq
          exact ⟨ne, by simp [hf], by rw [hn, hv]⟩
        · obtain ⟨e, he, hv⟩ := ih fen v hmem
          exact ⟨e, List.mem_cons_of_mem _ he, hv⟩

/-- C9 witness: the exclusion law applied to a concrete malformed token
`1.2.3` (three dot-separated parts, rejected by `float`). -/
theorem C9_witness :
    extract_rows [("f1", "0.5"), ("f2", "1.2.3")] = extract_rows [("f1", "0.5")] :=
  C9_malformed_rows_excluded.1 [("f1", "0.5")] [] "f2" "1.2.3" (by decide)

/-! ## Theorems: train/validation split -/

/-- C5: on 100 fetched rows the split is the deterministic cut at index
`int(100 * 0.8) = 80`: the first 80 rows train, the last 20 validate,
the two concatenate back to the fetched sequence (so they cover it, in
order), and when the rows are pairwise distinct no row is in both. -/
theorem C5_train_val_split {α : Type} (df : List α) (h : df.length = 100) :
    fetch_data df = (df.take 80, df.drop 80) ∧
    (fetch_data df).1 ++ (fetch_data df).2 = df ∧
    (fetch_data df).1.length = 80 ∧ (fetch_data df).2.length = 20 ∧
    (df.Nodup → ∀ x, x ∈ (fetch_data df).1 → x ∉ (fetch_data df).2) := by
  have hcut : df.length * 4 / 5 = 80 := by rw [h]
  have hfd : fetch_data df = (df.take 80, df.drop 80) := by
    unfold fetch_data
    rw [hcut]
  refine ⟨hfd, ?_, ?_, ?_, ?_⟩
  · rw [hfd]; exact List.take_append_drop 80 df
  · rw [hfd]; simp [h]
  · rw [hfd]; simp [h]
  · intro hnd x hx1 hx2
    rw [hfd] at hx1 hx2
    exact (List.disjoint_take_drop hnd le_rfl) hx1 hx2

/-- C5 witness: the split applied to the concrete row sequence
`0, 1, ..., 99`. -/
theorem C5_witness :
    fetch_data (List.range 100) = ((List.range 100).take 80, (List.range 100).drop 80) :=
  (C5_train_val_split (List.range 100) (by simp)).1

/-! ## Theorems: label standardization -/

/-- C6: with the scale fitted on the training labels only (`scale² = var`,
or `scale = 1` when the variance vanishes, as sklearn substitutes), the
fitted scale is nonzero, `inverse_transform (transform y) = y` exactly for
every training label, and both the training and the validation labels are
transformed with the train-fitted mean and scale (the validation split is
never re-fitted). -/
theorem C6_scaler_round_trip (train val : List ℚ) (scale : ℚ)
    (hscale : (fit_var train = 0 → scale = 1) ∧
      (fit_var train ≠ 0 → scale ^ 2 = fit_var train ∧ 0 < scale)) :
    scale ≠ 0 ∧
    (∀ y ∈ train, scaler_inverse_transform (fit_mean train) scale
        (scaler_transform (fit_mean train) scale y) = y) ∧
    load_and_preprocess_labels train val scale =
      (train.map (scaler_transform (fit_mean train) scale),
       val.map (scaler_transform (fit_mean train) scale)) := by
  have hs : scale ≠ 0 := by
    by_cases h0 : fit_var train = 0
    · rw [hscale.1 h0]; norm_num
    · exact ne_of_gt (hscale.2 h0).2
  refine ⟨hs, ?_, rfl⟩
  intro y _
  unfold scaler_transform scaler_inverse_transform
  field_simp

/-- C6 witness: the round trip applied to the concrete training split
`[0]` (variance 0, so the fitted scale is sklearn's substitute 1). -/
theorem C6_witness :
    scaler_inverse_transform (fit_mean [0]) 1 (scaler_transform (fit_mean [0]) 1 0) = 0 :=
  (C6_scaler_round_trip [0] [1] 1
    ⟨fun _ => rfl, fun h => absurd (by simp [fit_var, fit_mean]) h⟩).2.1 0 (by simp)

/-! ## Theorems: silent zero label for unanalyzed positions -/

/-- C10: when the engine's analysis result carries no score entry (and no
exception is raised), `evaluate_position` returns the default score 0 —
not `None` — with no best move, and the `score is not None` filter in
`update_positions_in_db` therefore keeps the row: it is written to the
database with `black_score = 0`. -/
theorem C10_missing_score_silently_zero (pid : Nat) (info : AnalysisInfo)
    (h : info.score = none) :
    evaluate_position pid info = (pid, some 0, none) ∧
    update_rows [evaluate_position pid info] = [(some 0, none, pid)] := by
  have e : evaluate_position pid info = (pid, some 0, none) := by
    unfold evaluate_position
    rw [h]
  exact ⟨e, by rw [e]; rfl⟩

/-- C10 witness: a concrete scoreless analysis result for position id 5. -/
theorem C10_witness : evaluate_position 5 ⟨none, []⟩ = (5, some 0, none) :=
  (C10_missing_score_silently_zero 5 ⟨none, []⟩ rfl).1

/-! ## Theorems: auxiliary features -/

/-- Every successfully extracted feature vector has exactly six entries,
each of them 0 or 1. -/
lemma encode_extra_spec (fen : String) (v : List ℚ)
    (h : encode_extra_features fen = some v) :
    v.length = 6 ∧ ∀ x ∈ v, x = 0 ∨ x = 1 := by
  unfold encode_extra_features at h
  rw [Option.map_eq_some'] at h
  obtain ⟨p, -, rfl⟩ := h
  refine ⟨rfl, ?_⟩
  intro x hx
  simp only [List.mem_cons, List.not_mem_nil, or_false] at hx
  rcases hx with rfl | rfl | rfl | rfl | rfl | rfl <;> split_ifs <;> simp

/-- C7: for every FEN that parses, `encode_extra_features` returns a
6-element vector `[side to move (1 = black), white kingside castle,
white queenside castle, black kingside castle, black queenside castle,
en passant available]` whose entries are all 0 or 1, and on the standard
starting FEN it returns exactly `[0, 1, 1, 1, 1, 0]`. -/
theorem C7_extra_features (fen : String) (v : List ℚ)
    (h : encode_extra_features fen = some v) :
    (v.length = 6 ∧ ∀ x ∈ v, x = 0 ∨ x = 1) ∧
    encode_extra_features startFen = some [0, 1, 1, 1, 1, 0] :=
  ⟨encode_extra_spec fen v h, rfl⟩

/-- C7 witness: the feature contract applied at the starting FEN. -/
theorem C7_witness :
    encode_extra_features startFen = some [0, 1, 1, 1, 1, 0] ∧
    ([(0 : ℚ), 1, 1, 1, 1, 0].length = 6 ∧
      ∀ x ∈ [(0 : ℚ), 1, 1, 1, 1, 0], x = 0 ∨ x = 1) :=
  ⟨rfl, (C7_extra_features startFen [0, 1, 1, 1, 1, 0] rfl).1⟩

/-! ## Theorems: 13-plane one-hot encoding -/

/-- Shape facts about a successfully parsed rank list. -/
lemma parseRanks_shape : ∀ (rs : List (List Char)) (g : Grid),
    parseRanks rs = some g → g.length = rs.length ∧ ∀ r ∈ g, r.length = 8 := by
  intro rs
  induction rs with
  | nil =>
    intro g h
    cases h
    exact ⟨rfl, by intro r hr; cases hr⟩
  | cons r0 rs ih =>
    intro g h
    unfold parseRanks at h
    cases he : expandFenRank r0 false with
    | none => rw [he] at h; cases h
    | some e =>
      simp only [he] at h
      split_ifs at h with hlen
      cases hp : parseRanks rs with
      | none => rw [hp] at h; cases h
      | some g0 =>
        rw [hp] at h
        cases h
        obtain ⟨hg0len, hg0⟩ := ih g0 hp
        refine ⟨by simp [hg0len], ?_⟩
        intro r hr
        rcases List.mem_cons.mp hr with rfl | hr
        · exact hlen
        · exact hg0 r hr

/-- A successfully parsed placement field is an 8-by-8 grid. -/
lemma parseBoardFen_shape (cs : List Char) (g : Grid)
    (h : parseBoardFen cs = some g) : g.length = 8 ∧ ∀ r ∈ g, r.length = 8 := by
  unfold parseBoardFen at h
  split_ifs at h with h8
  obtain ⟨hlen, hrow⟩ := parseRanks_shape _ _ h
  exact ⟨by rw [hlen, h8], hrow⟩

/-- The grid of a successfully built `Position` comes from a successful
`parseBoardFen` of the placement field. -/
lemma parseFenFields_grid (fs : List (List Char)) (p : Position)
    (h : parseFenFields fs = some p) : ∃ pl, parseBoardFen pl = some p.grid := by
  rcases fs with _ | ⟨pl, _ | ⟨trn, _ | ⟨cast, _ | ⟨ep, _ | ⟨half, _ | ⟨full, _ | ⟨x, rest⟩⟩⟩⟩⟩⟩⟩ <;>
    try (cases h)
  simp only [parseFenFields] at h
  cases hg : parseBoardFen pl with
  | none => rw [hg] at h; cases h
  | some g =>
    cases hep : parseEpField ep with
    | none => rw [hg, hep] at h; cases h
    | some epSq =>
      rw [hg, hep] at h
      split_ifs at h <;> (cases h; exact ⟨pl, hg⟩)

lemma parseFen_grid_shape (s : String) (p : Position)
    (h : parseFen s = some p) : p.grid.length = 8 ∧ ∀ r ∈ p.grid, r.length = 8 := by
  obtain ⟨pl, hg⟩ := parseFenFields_grid _ p h
  exact parseBoardFen_shape pl p.grid hg

/-- Only the 13 alphabet characters have a one-hot index, and the index
is below 13. -/
lemma pieceIndex13_lt (c : Char) (i : Nat) (h : pieceIndex13 c = some i) : i < 13 := by
  unfold pieceIndex13 at h
  split at h <;> cases h <;> omega

/-- An indicator over a list not containing the index sums to 0. -/
lemma sum_indicator_not_mem (i : Nat) : ∀ (l : List Nat), i ∉ l →
    (l.map (fun j => if j = i then (1 : ℚ) else 0)).sum = 0 := by
  intro l
  induction l with
  | nil => intro _; simp
  | cons a l ih =>
    intro h
    have ha : ¬(a = i) := fun he => h (by rw [← he]; exact List.mem_cons_self a l)
    simp only [List.map_cons, List.sum_cons, if_neg ha]
    rw [ih (fun hm => h (List.mem_cons_of_mem _ hm))]
    ring

/-- An indicator over a duplicate-free list containing the index sums
to exactly 1. -/
lemma sum_indicator_nodup (i : Nat) : ∀ (l : List Nat), l.Nodup → i ∈ l →
    (l.map (fun j => if j = i then (1 : ℚ) else 0)).sum = 1 := by
  intro l
  induction l with
  | nil => intro _ h; cases h
  | cons a l ih =>
    intro hnd hm
    simp only [List.map_cons, List.sum_cons]
    by_cases he : a = i
    · subst he
      rw [if_pos rfl, sum_indicator_not_mem a l (List.nodup_cons.mp hnd).1]
      ring
    · have him : i ∈ l := by
        rcases List.mem_cons.mp hm with h1 | h1
        · exact absurd h1.symm he
        · exact h1
      rw [if_neg he, ih (List.nodup_cons.mp hnd).2 him]
      ring

/-- A successful `one_hot_encode_piece` is a 13-vector of zeros and ones
summing to 1 (exactly one entry is 1). -/
lemma one_hot_spec (c : Char) (v : List ℚ) (h : one_hot_encode_piece c = some v) :
    v.length = 13 ∧ v.sum = 1 ∧ ∀ x ∈ v, x = 0 ∨ x = 1 := by
  unfold one_hot_encode_piece at h
  rw [Option.map_eq_some'] at h
  obtain ⟨i, hi, rfl⟩ := h
  refine ⟨by simp, ?_, ?_⟩
  · exact sum_indicator_nodup i (List.range 13) (List.nodup_range 13)
      (List.mem_range.mpr (pieceIndex13_lt c i hi))
  · intro x hx
    obtain ⟨j, -, rfl⟩ := List.mem_map.mp hx
    split_ifs <;> simp

/-- A successfully encoded row is a list of one-hot 13-vectors, one per
character. -/
lemma encodeRow13_spec : ∀ (row : List Char) (vs : List (List ℚ)),
    encodeRow13 row = some vs →
    vs.length = row.length ∧
    ∀ v ∈ vs, v.length = 13 ∧ v.sum = 1 ∧ ∀ x ∈ v, x = 0 ∨ x = 1 := by
  intro row
  induction row with
  | nil =>
    intro vs h
    cases h
    exact ⟨rfl, by intro v hv; cases hv⟩
  | cons c cs ih =>
    intro vs h
    unfold encodeRow13 at h
    cases h1 : one_hot_encode_piece c with
    | none => rw [h1] at h; cases h
    | some v0 =>
      rw [h1] at h
      cases h2 : encodeRow13 cs with
      | none => rw [h2] at h; cases h
      | some vs0 =>
        rw [h2] at h
        cases h
        obtain ⟨hlen, hmem⟩ := ih vs0 h2
        refine ⟨by simp [hlen], ?_⟩
        intro v hv
        rcases List.mem_cons.mp hv with rfl | hv
        · exact one_hot_spec c v h1
        · exact hmem v hv

/-- A successfully encoded 8-wide grid gives rows of eight one-hot
13-vectors. -/
lemma encode_board_spec : ∀ (g : Grid) (t : List (List (List ℚ))),
    encode_board g = some t → (∀ r ∈ g, r.length = 8) →
    t.length = g.length ∧
    ∀ r ∈ t, r.length = 8 ∧
      ∀ v ∈ r, v.length = 13 ∧ v.sum = 1 ∧ ∀ x ∈ v, x = 0 ∨ x = 1 := by
  intro g
  induction g with
  | nil =>
    intro t h _
    cases h
    exact ⟨rfl, by intro r hr; cases hr⟩
  | cons row rows ih =>
    intro t h hg
    unfold encode_board at h
    cases h1 : encodeRow13 row with
    | none => rw [h1] at h; cases h
    | some r0 =>
      rw [h1] at h
      cases h2 : encode_board rows with
      | none => rw [h2] at h; cases h
      | some t0 =>
        rw [h2] at h
        cases h
        obtain ⟨hl0, hm0⟩ := encodeRow13_spec row r0 h1
        obtain ⟨hlen, hmem⟩ := ih t0 h2 (fun r hr => hg r (List.mem_cons_of_mem _ hr))
        refine ⟨by simp [hlen], ?_⟩
        intro r hr
        rcases List.mem_cons.mp hr with rfl | hr
        · exact ⟨by rw [hl0]; exact hg row (List.mem_cons_self _ _), hm0⟩
        · exact hmem r hr

/-- A list of constants sums to length times the constant. -/
lemma sum_of_const (q : ℚ) : ∀ (l : List ℚ), (∀ x ∈ l, x = q) →
    l.sum = l.length * q := by
  intro l
  induction l with
  | nil => intro _; simp
  | cons a l ih =>
    intro h
    simp only [List.sum_cons, List.length_cons]
    rw [h a (List.mem_cons_self _ _), ih (fun x hx => h x (List.mem_cons_of_mem _ hx))]
    push_cast
    ring

/-- C2: the 13-plane encoding of every FEN that parses is an 8-by-8 grid
of 13-vectors in which every entry is 0 or 1 and each per-square vector
sums to exactly 1 — exactly one entry per square is 1 (the piece channel,
or the empty channel) — so the whole 8-by-8-by-13 tensor sums to exactly
64. -/
theorem C2_one_hot_encoding (fen : String) (t : List (List (List ℚ)))
    (h : encode_fen_string fen = some t) :
    t.length = 8 ∧
    (∀ r ∈ t, r.length = 8 ∧
      ∀ v ∈ r, v.length = 13 ∧ v.sum = 1 ∧ ∀ x ∈ v, x = 0 ∨ x = 1) ∧
    (t.map (fun r => (r.map (fun v => v.sum)).sum)).sum = 64 := by
  unfold encode_fen_string at h
  cases hp : parseFen fen with
  | none => rw [hp] at h; cases h
  | some p =>
    rw [hp] at h
    simp only [Option.some_bind] at h
    obtain ⟨hg8, hrow8⟩ := parseFen_grid_shape fen p hp
    obtain ⟨hlen, hmem⟩ := encode_board_spec p.grid t h hrow8
    have ht8 : t.length = 8 := by rw [hlen, hg8]
    refine ⟨ht8, hmem, ?_⟩
    have hinner : ∀ r ∈ t, (r.map (fun v => v.sum)).sum = (8 : ℚ) := by
      intro r hr
      obtain ⟨hr8, hv⟩ := hmem r hr
      have hone : ∀ x ∈ r.map (fun v => v.sum), x = (1 : ℚ) := by
        intro x hx
        obtain ⟨v, hvr, rfl⟩ := List.mem_map.mp hx
        exact (hv v hvr).2.1
      rw [sum_of_const 1 _ hone]
      simp [hr8]
    have houter : ∀ x ∈ t.map (fun r => (r.map (fun v => v.sum)).sum), x = (8 : ℚ) := by
      intro x hx
      obtain ⟨r, hrt, rfl⟩ := List.mem_map.mp hx
      exact hinner r hrt
    rw [sum_of_const 8 _ houter]
    simp only [List.length_map, ht8]
    norm_num

/-- C2 witness: the one-hot laws applied at the starting FEN. -/
theorem C2_witness : ∃ t, encode_fen_string startFen = some t ∧ t.length = 8 :=
  ⟨_, rfl, (C2_one_hot_encoding startFen _ rfl).1⟩

/-! ## Theorems: 12-plane bitboard encoding -/

/-- Counting the 1-entries of a 0/1 indicator list counts the satisfying
elements. -/
lemma count_one_indicator {α : Type} (P : α → Prop) [DecidablePred P] :
    ∀ l : List α,
      (l.map (fun a => if P a then (1 : ℚ) else 0)).count 1 =
        (l.filter (fun a => decide (P a))).length := by
  intro l
  induction l with
  | nil => simp
  | cons a l ih =>
    simp only [List.map_cons, List.filter_cons]
    by_cases hP : P a
    · rw [if_pos hP, List.count_cons, ih]
      simp [hP]
    · rw [if_neg hP, List.count_cons, ih]
      have : ¬((0 : ℚ) = 1) := by norm_num
      simp [hP, this]

/-- Entry `s` of a bitboard plane, for a square index `s < 64`. -/
lemma bitboardPlane_getD (g : Grid) (c s : Nat) (hs : s < 64) :
    (bitboardPlane g c).getD s 0 =
      if pieceChannel (squareChar g s) = some c then 1 else 0 := by
  unfold bitboardPlane
  have hlen : s < ((List.range 64).map
      (fun s => if pieceChannel (squareChar g s) = some c then (1 : ℚ) else 0)).length := by
    simpa using hs
  rw [List.getD_eq_getElem _ _ hlen, List.getElem_map]
  simp

/-- Each bitboard plane's population count equals the number of pieces of
that channel on the board. -/
lemma bitboardPlane_count (g : Grid) (c : Nat) :
    (bitboardPlane g c).count 1 = pieceCountOnGrid g c :=
  count_one_indicator (fun s => pieceChannel (squareChar g s) = some c) (List.range 64)

/-- Flattening the chunks recovers the original list. -/
lemma flatten_chunksOf (size : Nat) : ∀ (k : Nat) (l : List ℚ), l.length = size * k →
    (chunksOf size k l).flatten = l := by
  intro k
  induction k with
  | zero =>
    intro l h
    simp only [Nat.mul_zero] at h
    rw [List.length_eq_zero] at h
    subst h
    rfl
  | succ k ih =>
    intro l h
    unfold chunksOf
    simp only [List.flatten_cons]
    rw [ih (l.drop size) (by rw [List.length_drop, h]; ring_nf; omega)]
    exact List.take_append_drop size l

/-- Every chunk has the chunk size when the list length is exact. -/
lemma mem_chunksOf_length (size : Nat) : ∀ (k : Nat) (l : List ℚ), l.length = size * k →
    ∀ c ∈ chunksOf size k l, c.length = size := by
  intro k
  induction k with
  | zero => intro l _ c hc; cases hc
  | succ k ih =>
    intro l h c hc
    unfold chunksOf at hc
    rcases List.mem_cons.mp hc with rfl | hc
    · rw [List.length_take, h]
      have : size ≤ size * (k + 1) := by
        calc size = size * 1 := (Nat.mul_one size).symm
        _ ≤ size * (k + 1) := Nat.mul_le_mul_left size (by omega)
      omega
    · exact ih (l.drop size) (by rw [List.length_drop, h]; ring_nf; omega) c hc

/-- `.flatten()` after `reshape((8, 8, 12))` is the identity on
768-element buffers. -/
lemma tensorFlatten_reshape8812 (l : List ℚ) (h : l.length = 768) :
    tensorFlatten (reshape8812 l) = l := by
  unfold tensorFlatten reshape8812
  rw [List.map_map]
  have hrow : ∀ r ∈ chunksOf 96 8 l,
      ((fun r => List.flatten r) ∘ fun r => chunksOf 12 8 r) r = id r := by
    intro r hr
    exact flatten_chunksOf 12 8 r
      (by rw [mem_chunksOf_length 96 8 l (by rw [h]) r hr])
  rw [List.map_congr_left hrow, List.map_id]
  exact flatten_chunksOf 96 8 l (by rw [h])

/-- The flat bitboard buffer has exactly 768 entries. -/
lemma bitboardFlat_length (g : Grid) : (bitboardFlat g).length = 768 := by
  unfold bitboardFlat
  rw [List.length_flatten, List.map_map]
  have hc : ∀ c ∈ List.range 12,
      (List.length ∘ fun c => bitboardPlane g c) c = (fun _ => 64) c := by
    intro c _
    simp [bitboardPlane]
  rw [List.map_congr_left hc]
  decide

/-- C1 (amended): for every FEN that parses, `encode_fen_to_bitboard`
builds the channel-major `(12, 64)` buffer in which plane `c`'s
population count equals the number of pieces of channel `c` on the board
and the entries at empty squares are zero in every plane (square index
a1 = 0, bottom rank first — the reverse rank order of the 13-plane
variant); the returned `(8, 8, 12)` tensor is the row-major
reinterpretation `reshape8812` of that buffer, a pure index permutation
that preserves the total population count but does not align the third
tensor axis with piece channels. -/
theorem C1_amended_bitboard (fen : String) (p : Position) (h : parseFen fen = some p) :
    encode_fen_to_bitboard fen = some (reshape8812 (bitboardFlat p.grid)) ∧
    (∀ c, (bitboardPlane p.grid c).count 1 = pieceCountOnGrid p.grid c) ∧
    (∀ s, s < 64 → squareChar p.grid s = '.' →
      ∀ c, (bitboardPlane p.grid c).getD s 0 = 0) ∧
    (bitboardFlat p.grid).count 1 =
      ((List.range 12).map (fun c => pieceCountOnGrid p.grid c)).sum := by
  refine ⟨by unfold encode_fen_to_bitboard; rw [h]; rfl, bitboardPlane_count p.grid, ?_, ?_⟩
  · intro s hs hsq c
    rw [bitboardPlane_getD p.grid c s hs, if_neg]
    rw [hsq]
    simp [pieceChannel]
  · unfold bitboardFlat
    rw [List.count_flatten, List.map_map]
    congr 1
    apply List.map_congr_left
    intro c _
    exact bitboardPlane_count p.grid c

/-- C1 (amended) witness: the bitboard laws applied at the starting FEN. -/
theorem C1_amended_witness :
    ∃ p, parseFen startFen = some p ∧
      encode_fen_to_bitboard startFen = some (reshape8812 (bitboardFlat p.grid)) :=
  ⟨_, rfl, (C1_amended_bitboard startFen _ rfl).1⟩

/-- C1 counterexample: at the standard starting position the board has 8
white pawns (channel 0), but channel 0 of the returned `(8, 8, 12)`
tensor carries only 4 ones, and the tensor cell at row 2, column 0 —
square a6 under the claimed top-rank-first ordering, an empty square —
has a 1 in channel 0: the claimed per-channel population counts and the
all-zero property of empty squares both fail on the reshaped output. -/
theorem C1_counterexample :
    (encode_fen_to_bitboard startFen).isSome = true ∧
    pieceCountOnGrid startGrid 0 = 8 ∧
    tensorChannelOnes ((encode_fen_to_bitboard startFen).getD []) 0 = 4 ∧
    squareChar startGrid 40 = '.' ∧
    ((((encode_fen_to_bitboard startFen).getD []).getD 2 []).getD 0 []).getD 0 0 = 1 :=
  ⟨by decide, by decide, by decide, by decide, by decide⟩

/-! ## Theorems: TFRecord materialization -/

/-- A successfully encoded record parses back to exactly the bitboard
tensor, the auxiliary features, and the label of its source row. -/
lemma encodeRowForRecord_parse (fen : String) (ev : ℚ) (r : TFRecord)
    (h : encodeRowForRecord fen ev = some r) :
    ∃ bb ex, encode_fen_to_bitboard fen = some bb ∧
      encode_extra_features fen = some ex ∧
      parse_function r = some (bb, ex, ev) := by
  unfold encodeRowForRecord at h
  cases hbb : encode_fen_to_bitboard fen with
  | none => rw [hbb] at h; cases h
  | some bb =>
    cases hex : encode_extra_features fen with
    | none => rw [hbb, hex] at h; cases h
    | some ex =>
      rw [hbb, hex] at h
      cases h
      refine ⟨bb, ex, rfl, rfl, ?_⟩
      have hbb' := hbb
      unfold encode_fen_to_bitboard at hbb'
      obtain ⟨p, -, rfl⟩ := Option.map_eq_some'.mp hbb'
      have hflat : tensorFlatten (reshape8812 (bitboardFlat p.grid)) = bitboardFlat p.grid :=
        tensorFlatten_reshape8812 _ (bitboardFlat_length p.grid)
      have hblen : (tensorFlatten (reshape8812 (bitboardFlat p.grid))).length = 768 := by
        rw [hflat]
        exact bitboardFlat_length p.grid
      have hexlen : ex.length = 6 := (encode_extra_spec fen ex hex).1
      unfold parse_function
      rw [if_pos (by simp [hblen, hexlen])]
      rw [hflat]
      rfl

/-- C3: a materialization that raises no error writes exactly one record
per dataframe row, in order, and parsing each record back yields the
`(8, 8, 12)` bitboard tensor of the row's FEN, its auxiliary feature
vector, and its evaluation as the label — identical to encoding the same
rows directly in memory. -/
theorem C3_tfrecord_round_trip : ∀ (df : List (String × ℚ)) (recs : List TFRecord),
    create_tfrecord_file df = (recs, none) →
    recs.length = df.length ∧
    List.Forall₂ (fun (row : String × ℚ) (r : TFRecord) =>
      ∃ bb ex, encode_fen_to_bitboard row.1 = some bb ∧
        encode_extra_features row.1 = some ex ∧
        parse_function r = some (bb, ex, row.2)) df recs := by
  intro df
  induction df with
  | nil =>
    intro recs h
    cases h
    exact ⟨rfl, List.Forall₂.nil⟩
  | cons row rest ih =>
    obtain ⟨fen, ev⟩ := row
    intro recs h
    unfold create_tfrecord_file at h
    cases he : encodeRowForRecord fen ev with
    | none => rw [he] at h; cases h
    | some r0 =>
      rw [he] at h
      cases hrest : create_tfrecord_file rest with
      | mk l e =>
        rw [hrest] at h
        cases h
        obtain ⟨hlen, hfa⟩ := ih l hrest
        exact ⟨by simp [hlen], List.Forall₂.cons (encodeRowForRecord_parse fen ev r0 he) hfa⟩

/-- C3 witness: a one-row dataframe at the starting FEN materializes and
streams back. -/
theorem C3_witness :
    ∃ recs, create_tfrecord_file [(startFen, 0)] = (recs, none) ∧
      recs.length = [(startFen, (0 : ℚ))].length :=
  ⟨_, rfl, (C3_tfrecord_round_trip [(startFen, 0)] _ rfl).1⟩

/-- C8 (amended): the per-row loop of `create_tfrecord_file` has no
exception handling, so the first row whose FEN fails to encode raises
out of the whole write: the rows before it are in the file, and neither
the malformed row nor any later well-formed row is written. -/
theorem C8_amended_abort : ∀ (pre post : List (String × ℚ)) (fen : String) (ev : ℚ),
    (create_tfrecord_file pre).2 = none →
    encodeRowForRecord fen ev = none →
    create_tfrecord_file (pre ++ (fen, ev) :: post) =
      ((create_tfrecord_file pre).1, some "ParseError") := by
  intro pre
  induction pre with
  | nil =>
    intro post fen ev _ hbad
    simp only [List.nil_append]
    unfold create_tfrecord_file
    rw [hbad]
  | cons q pre ih =>
    obtain ⟨f0, e0⟩ := q
    intro post fen ev hpre hbad
    cases he0 : encodeRowForRecord f0 e0 with
    | none =>
      exfalso
      have : create_tfrecord_file ((f0, e0) :: pre) = ([], some "ParseError") := by
        unfold create_tfrecord_file
        rw [he0]
      rw [this] at hpre
      cases hpre
    | some r0 =>
      have hL : create_tfrecord_file ((f0, e0) :: (pre ++ (fen, ev) :: post)) =
          (r0 :: (create_tfrecord_file (pre ++ (fen, ev) :: post)).1,
            (create_tfrecord_file (pre ++ (fen, ev) :: post)).2) := by
        conv_lhs => rw [create_tfrecord_file]
        rw [he0]
      have hR : create_tfrecord_file ((f0, e0) :: pre) =
          (r0 :: (create_tfrecord_file pre).1, (create_tfrecord_file pre).2) := by
        conv_lhs => rw [create_tfrecord_file]
        rw [he0]
      have hpre' : (create_tfrecord_file pre).2 = none := by
        rw [hR] at hpre
        exact hpre
      simp only [List.cons_append]
      rw [hL, ih post fen ev hpre' hbad, hR]

/-- C8 (amended) witness: a concrete malformed middle row aborts after
the first record. -/
theorem C8_amended_witness :
    create_tfrecord_file ([(startFen, 0)] ++ ("bad", 0) :: [(startFen, 1)]) =
      ((create_tfrecord_file [(startFen, 0)]).1, some "ParseError") :=
  C8_amended_abort [(startFen, 0)] [(startFen, 1)] "bad" 0 (by decide) (by decide)

/-- C8 counterexample: in the concrete dataframe
`[(startFen, 0), ("bad", 0), (startFen, 1)]` two rows are well formed,
yet the materialization stops at the malformed second row having written
only one record — it does not write records for all well-formed rows. -/
theorem C8_counterexample :
    wellFormedRowCount [(startFen, 0), ("bad", 0), (startFen, 1)] = 2 ∧
    (create_tfrecord_file [(startFen, 0), ("bad", 0), (startFen, 1)]).1.length = 1 ∧
    (create_tfrecord_file [(startFen, 0), ("bad", 0), (startFen, 1)]).2 = some "ParseError" :=
  ⟨by decide, by decide, by decide⟩

end ChessEval
